import Mathlib

/-!
Shallow embedding of the transclusion resolution engine of
obsidian-native-transcludes (src/main.js), together with theorems checking
its specification.  Strings are modelled as lists of characters, the DOM
ancestor chain of a marker as a list of nodes, and the external collaborators
(vault, renderer) as an explicit environment record.
-/

namespace NativeTransclusion

/-- Whitespace as matched by the JavaScript regex class \s, restricted to the
ASCII range used by the markdown texts the plugin processes. -/
def jsIsSpace (c : Char) : Bool :=
  c == ' ' || c == '\t' || c == '\n' || c == '\r' || c == '\x0b' || c == '\x0c'

/-- Length of the run of '#' characters at the head of the list; this is how
the regex fragment #{1,6} (with the following \s+ requirement) measures a
heading marker, cf. src/main.js line 73. -/
def countHashes : List Char → Nat
  | [] => 0
  | c :: cs => if c == '#' then countHashes cs + 1 else 0

/-- A node of the rendered DOM tree, reduced to the one attribute the plugin
inspects: its tag name (absent for non-element nodes, where parent.tagName is
falsy). -/
structure Nd where
  tagName : Option (List Char)
deriving DecidableEq, Repr

/-- Heading level extracted from a tag name: the regex /^H[1-6]$/ together
with parseInt(tagName.charAt(1)) of src/main.js lines 85-86.  The regex
accepts exactly the two-character names whose first character is H and whose
second is a digit between 1 and 6. -/
def tagLevel : List Char → Option Nat
  | [a, c] =>
    if a = 'H' ∧ '1' ≤ c ∧ c ≤ '6' then some (c.toNat - '0'.toNat) else none
  | _ => none

/-- Level of a node: its tag name must be present (truthy) and match H1-H6. -/
def ndLevel (nd : Nd) : Option Nat :=
  match nd.tagName with
  | some t => tagLevel t
  | none => none

/-- The ancestor heading locator getParentHeaderLevel of src/main.js lines
82-91.  The chain lists the marker node itself first, then its parents up to
the root; the loop starts at the marker itself (let parent = transclusion)
and walks upward, returning the first heading level found. -/
def getParentHeaderLevel : List Nd → Option Nat
  | [] => none
  | nd :: rest =>
    match ndLevel nd with
    | some l => some l
    | none => getParentHeaderLevel rest

/-- Modelled from the spec (section 4.3): a locator that walks strictly
upward through ancestor nodes, never inspecting the marker node itself.
Used to compare the spec's wording against the source's locator. -/
def strictAncestorLevel (chain : List Nd) : Option Nat :=
  getParentHeaderLevel (chain.drop 1)

/-- True when the list starts with a whitespace character, i.e. the \s+ part
of the heading regex can match here. -/
def firstIsSpace : List Char → Bool
  | [] => false
  | c :: _ => jsIsSpace c

/-- The whitespace run consumed by the greedy \s+ of the heading regex. -/
def takeWs (l : List Char) : List Char := l.takeWhile jsIsSpace

/-- What remains after the greedy \s+ of the heading regex. -/
def dropWs (l : List Char) : List Char := l.dropWhile jsIsSpace

/-- True when the last consumed character of a match is a newline, so that
the multiline anchor ^ matches at the position right after the match. -/
def lastIsNewline (l : List Char) : Bool :=
  match l.getLast? with
  | some c => c == '\n'
  | none => false

theorem length_dropWs_le (l : List Char) : (dropWs l).length ≤ l.length := by
  induction l with
  | nil => simp [dropWs]
  | cons c cs ih =>
    by_cases h : jsIsSpace c
    · simpa [dropWs, List.dropWhile, h] using Nat.le_succ_of_le ih
    · simp [dropWs, List.dropWhile, h]

theorem length_dropWs_lt (l : List Char) (h : firstIsSpace l = true) :
    (dropWs l).length < l.length := by
  cases l with
  | nil => simp [firstIsSpace] at h
  | cons c cs =>
    simp only [firstIsSpace] at h
    simpa [dropWs, List.dropWhile, h] using
      Nat.lt_succ_of_le (length_dropWs_le cs)

/-- The global multiline replace content.replace(/^(#{1,6})\s+/gm, ...) of
src/main.js lines 73-76, scanning left to right over the character list.
atStart records whether the multiline anchor ^ matches at the current
position (start of string, or right after a newline — including a newline
consumed as the last character of a previous match's \s+ run).  At an
anchored position the regex matches when the hash run has length 1..6 and is
followed by at least one whitespace character; the greedy \s+ then consumes
the whole whitespace run, and the replacement emits
min(hashes + base, 6) hash characters followed by a single space. -/
def shiftLoop (base : Nat) : Bool → List Char → List Char
  | _, [] => []
  | atStart, c :: cs =>
    if h : atStart = true ∧ 1 ≤ countHashes (c :: cs) ∧ countHashes (c :: cs) ≤ 6 ∧
        firstIsSpace ((c :: cs).drop (countHashes (c :: cs))) = true then
      List.replicate (min (countHashes (c :: cs) + base) 6) '#' ++
        ' ' :: shiftLoop base
          (lastIsNewline (takeWs ((c :: cs).drop (countHashes (c :: cs)))))
          (dropWs ((c :: cs).drop (countHashes (c :: cs))))
    else
      c :: shiftLoop base (c == '\n') cs
termination_by _ s => s.length
decreasing_by
  · simp_wf
    calc (dropWs ((c :: cs).drop (countHashes (c :: cs)))).length
        < ((c :: cs).drop (countHashes (c :: cs))).length :=
          length_dropWs_lt _ h.2.2.2
      _ ≤ (c :: cs).length := by
          simp
  · simp_wf

/-- The pure heading shifter shift(text, baseLevel): with base level none the
text is returned unchanged (src/main.js line 71), otherwise the regex
replacement runs with the multiline anchor matching at the very start. -/
def shiftOpt (content : List Char) : Option Nat → List Char
  | none => content
  | some base => shiftLoop base true content

/-- shiftHeadings(content, transclusion) of src/main.js lines 69-77: looks up
the parent heading level from the marker's ancestor chain and applies the
regex replacement with it. -/
def shiftHeadings (content : List Char) (chain : List Nd) : List Char :=
  shiftOpt content (getParentHeaderLevel chain)

/-- The two plugin settings, src/main.js lines 94-97. -/
structure Settings where
  renderAllTransclusions : Bool
  shiftHeadings : Bool
deriving DecidableEq, Repr

/-- Persisted data as returned by loadData(): each field may be absent, and
the whole object may be null/undefined. -/
structure SavedData where
  renderAllTransclusions : Option Bool
  shiftHeadings : Option Bool
deriving DecidableEq, Repr

/-- loadSettings of src/main.js lines 93-98: Object.assign of the persisted
data over the defaults.  A null/undefined source contributes nothing; a
present field overrides the default. -/
def loadSettings : Option SavedData → Settings
  | none => { renderAllTransclusions := false, shiftHeadings := false }
  | some d =>
    { renderAllTransclusions := d.renderAllTransclusions.getD false,
      shiftHeadings := d.shiftHeadings.getD false }

/-- A document path, the plugin's document identifier. -/
abbrev DocPath := List Char

/-- What getAbstractFileByPath returns when it finds something: the only
property the plugin checks is the instanceof-TFile test (src/main.js
line 28). -/
structure VFile where
  isTFile : Bool
deriving DecidableEq, Repr

/-- An embed marker (span.internal-embed): its src attribute (absent when
getAttribute returns null), its serialized outerHTML, and its ancestor chain
in the rendered tree (the marker node itself first). -/
structure Marker where
  src : Option DocPath
  outerHTML : List Char
  chain : List Nd
deriving DecidableEq, Repr

/-- True when hay starts with pat. -/
def startsWithSeq : List Char → List Char → Bool
  | [], _ => true
  | _ :: _, [] => false
  | p :: ps, c :: cs => p == c && startsWithSeq ps cs

/-- JavaScript String.prototype.includes, as used for the explicit-embed test
outerHTML.includes("!![[") on src/main.js line 23. -/
def containsSeq (pat : List Char) : List Char → Bool
  | [] => startsWithSeq pat []
  | c :: cs => startsWithSeq pat (c :: cs) || containsSeq pat cs

/-- The explicit-embed classification of a marker (src/main.js line 23). -/
def isExplicitMarker (m : Marker) : Bool :=
  containsSeq "!![[".toList m.outerHTML

/-- JavaScript truthiness of the src attribute value: null and the empty
string are falsy (the if (filePath) test on src/main.js line 26). -/
def srcTruthy : Option DocPath → Bool
  | none => false
  | some s => !s.isEmpty

/-- The external collaborators, at their interface boundary: the vault lookup
getAbstractFileByPath, the asynchronous vault.read (which may reject), and
the external MarkdownRenderer.render (which may reject; modelled as a
function from source path and markdown text to rendered content). -/
structure Env where
  getFile : DocPath → Option VFile
  readFile : DocPath → Except (List Char) (List Char)
  render : DocPath → List Char → Except (List Char) (List Char)

/-- The text of the warning div spliced in on cycle detection, src/main.js
line 33. -/
def warningText (p : DocPath) : List Char :=
  "⚠️ Infinite loop detected: ".toList ++ p

/-- The final state of a marker's DOM position after the pass: still the
untouched marker, replaced by a warning div, or replaced by the rendered
container. -/
inductive NodeState where
  | marker (m : Marker)
  | warning (text : List Char)
  | rendered (content : List Char)
deriving DecidableEq, Repr

/-- JavaScript Set.prototype.add on the in-flight set (a set: adding a
present element changes nothing). -/
def setAdd (p : DocPath) (s : List DocPath) : List DocPath :=
  if s.contains p then s else p :: s

/-- The inner body of the post-processor loop for one marker that has passed
the policy gate of src/main.js line 25: lines 26-60.  Returns the marker's
final node state (or the propagated rejection of an awaited call) together
with the in-flight set after the iteration.  There is no try/finally in the
source: when vault.read or render rejects, the delete on line 58 is never
reached and the path stays in the set. -/
def processEligible (env : Env) (st : Settings) (inFlight : List DocPath)
    (m : Marker) : Except (List Char) NodeState × List DocPath :=
  if srcTruthy m.src then
    let filePath := m.src.getD []
    match env.getFile filePath with
    | none => (Except.ok (NodeState.marker m), inFlight)
    | some file =>
      if file.isTFile then
        if inFlight.contains filePath then
          (Except.ok (NodeState.warning (warningText filePath)), inFlight)
        else
          let inFlight1 := setAdd filePath inFlight
          match env.readFile filePath with
          | Except.error e => (Except.error e, inFlight1)
          | Except.ok fileContent =>
            let content1 :=
              if st.shiftHeadings then shiftHeadings fileContent m.chain
              else fileContent
            match env.render filePath content1 with
            | Except.error e => (Except.error e, inFlight1)
            | Except.ok out =>
              (Except.ok (NodeState.rendered out), inFlight1.erase filePath)
      else (Except.ok (NodeState.marker m), inFlight)
  else (Except.ok (NodeState.marker m), inFlight)

/-- One iteration of the post-processor loop, src/main.js lines 20-60: the
policy gate of line 25 in front of the eligible-marker pipeline. -/
def processMarker (env : Env) (st : Settings) (inFlight : List DocPath)
    (m : Marker) : Except (List Char) NodeState × List DocPath :=
  if st.renderAllTransclusions || isExplicitMarker m then
    processEligible env st inFlight m
  else (Except.ok (NodeState.marker m), inFlight)

/-- The whole post-processor pass over the markers of a fragment, in document
order.  A rejected await aborts the pass (the async callback's promise
rejects); the in-flight set keeps whatever state it had at that point. -/
def processAll (env : Env) (st : Settings) :
    List DocPath → List Marker → Except (List Char) (List NodeState) × List DocPath
  | inFlight, [] => (Except.ok [], inFlight)
  | inFlight, m :: ms =>
    match processMarker env st inFlight m with
    | (Except.error e, fl) => (Except.error e, fl)
    | (Except.ok ns, fl) =>
      match processAll env st fl ms with
      | (Except.error e, fl2) => (Except.error e, fl2)
      | (Except.ok rest, fl2) => (Except.ok (ns :: rest), fl2)

/-- An environment in which the target document A exists as a content file
but reading it rejects with an I/O error. -/
def envReadFails : Env where
  getFile := fun p => if p = ['A'] then some { isTFile := true } else none
  readFile := fun _ => Except.error "io error".toList
  render := fun _ c => Except.ok c

/-- An explicit embed marker referencing document A. -/
def markerA : Marker where
  src := some ['A']
  outerHTML := "<span class=\"internal-embed\" src=\"A\" alt=\"!![[A]]\"></span>".toList
  chain := []

/-- Settings with both toggles off. -/
def stPlain : Settings where
  renderAllTransclusions := false
  shiftHeadings := false

/-! ## Claim theorems -/

/-- C5: a marker is processed exactly when renderAllTransclusions is set or
the marker's serialized syntax contains the double-bang embed prefix; a
marker failing the test is skipped, leaving the marker and the in-flight set
exactly as they were. -/
theorem C5_policy_gate (env : Env) (st : Settings) (fl : List DocPath)
    (m : Marker) :
    processMarker env st fl m
      = (if st.renderAllTransclusions || isExplicitMarker m
         then processEligible env st fl m
         else (Except.ok (NodeState.marker m), fl))
    ∧ isExplicitMarker m = containsSeq "!![[".toList m.outerHTML := by
  constructor
  · rfl
  · rfl

/-- C7: a processed marker whose src attribute is falsy, or whose path is not
found in the vault, or resolves to something that is not a content file, is
left untouched: no warning, no render, no error, and the in-flight set is
unchanged. -/
theorem C7_unresolved_untouched (env : Env) (st : Settings)
    (fl : List DocPath) (m : Marker)
    (hgate : (st.renderAllTransclusions || isExplicitMarker m) = true)
    (hfail : srcTruthy m.src = false
           ∨ env.getFile (m.src.getD []) = none
           ∨ ∃ f, env.getFile (m.src.getD []) = some f ∧ f.isTFile = false) :
    processMarker env st fl m = (Except.ok (NodeState.marker m), fl) := by
  unfold processMarker processEligible
  rw [hgate]
  rcases hfail with h | h | ⟨f, hf, htf⟩
  · simp [h]
  · simp [h]
  · cases hs : srcTruthy m.src with
    | false => simp [hs]
    | true => simp [hs, hf, htf]

/-- C7 witness: a marker whose target path is missing from the vault is left
untouched. -/
theorem C7_witness :
    processMarker { getFile := fun _ => none,
                    readFile := fun _ => Except.error [],
                    render := fun _ c => Except.ok c }
        stPlain [] markerA
      = (Except.ok (NodeState.marker markerA), []) :=
  C7_unresolved_untouched _ _ _ _ (by decide) (Or.inr (Or.inl rfl))

/-- C8: loading settings merges persisted data over the defaults: a missing
field (or wholly absent data) yields renderAllTransclusions = false and
shiftHeadings = false, while a persisted field overrides its default. -/
theorem C8_settings_merge :
    loadSettings none
        = { renderAllTransclusions := false, shiftHeadings := false }
    ∧ (∀ d : SavedData, d.renderAllTransclusions = none →
        (loadSettings (some d)).renderAllTransclusions = false)
    ∧ (∀ d : SavedData, d.shiftHeadings = none →
        (loadSettings (some d)).shiftHeadings = false)
    ∧ (∀ (d : SavedData) (b : Bool), d.renderAllTransclusions = some b →
        (loadSettings (some d)).renderAllTransclusions = b)
    ∧ (∀ (d : SavedData) (b : Bool), d.shiftHeadings = some b →
        (loadSettings (some d)).shiftHeadings = b) := by
  refine ⟨rfl, ?_, ?_, ?_, ?_⟩
  · intro d h; simp [loadSettings, h]
  · intro d h; simp [loadSettings, h]
  · intro d b h; simp [loadSettings, h]
  · intro d b h; simp [loadSettings, h]

/-- C8 witness: loading data that persists only shiftHeadings = true yields
the default for renderAllTransclusions and the persisted value for
shiftHeadings. -/
theorem C8_witness :
    (loadSettings (some { renderAllTransclusions := none,
                          shiftHeadings := some true })).renderAllTransclusions
      = false
    ∧ (loadSettings (some { renderAllTransclusions := none,
                            shiftHeadings := some true })).shiftHeadings
      = true :=
  ⟨C8_settings_merge.2.1 _ rfl, C8_settings_merge.2.2.2.2 _ _ rfl⟩

/-- C2: when the referenced path is already in the in-flight set, the marker
is replaced by a warning node whose text names the path, the in-flight set is
left exactly as it was (the path is not removed), no read or render happens,
and the pass continues with the remaining markers. -/
theorem C2_cycle_warning (env : Env) (st : Settings) (fl : List DocPath)
    (m : Marker) (p : DocPath) (f : VFile) (ms : List Marker)
    (rest : List NodeState) (fl2 : List DocPath)
    (hgate : (st.renderAllTransclusions || isExplicitMarker m) = true)
    (hsrc : m.src = some p) (hp : p.isEmpty = false)
    (hfile : env.getFile p = some f) (htf : f.isTFile = true)
    (hin : fl.contains p = true)
    (hms : processAll env st fl ms = (Except.ok rest, fl2)) :
    processMarker env st fl m
        = (Except.ok (NodeState.warning (warningText p)), fl)
    ∧ warningText p = "⚠️ Infinite loop detected: ".toList ++ p
    ∧ processAll env st fl (m :: ms)
        = (Except.ok (NodeState.warning (warningText p) :: rest), fl2) := by
  have hstep : processMarker env st fl m
      = (Except.ok (NodeState.warning (warningText p)), fl) := by
    unfold processMarker processEligible
    rw [hgate]
    simp only [hsrc, srcTruthy, hp, Bool.not_false, if_true, Option.getD_some,
      hfile, htf, if_true]
    rw [if_pos (by simpa using hin)]
  refine ⟨hstep, rfl, ?_⟩
  simp only [processAll, hstep, hms]

/-- C2 witness: with document A already in flight, an explicit marker for A
becomes a warning naming A, the set still contains A, and an empty remainder
of the pass completes. -/
theorem C2_witness :
    processMarker envReadFails stPlain [['A']] markerA
        = (Except.ok (NodeState.warning (warningText ['A'])), [['A']])
    ∧ warningText ['A'] = "⚠️ Infinite loop detected: ".toList ++ ['A']
    ∧ processAll envReadFails stPlain [['A']] [markerA]
        = (Except.ok [NodeState.warning (warningText ['A'])], [['A']]) :=
  C2_cycle_warning envReadFails stPlain [['A']] markerA ['A']
    { isTFile := true } [] [] [['A']] (by decide) rfl rfl rfl rfl
    (by decide) rfl

/-- C9: a marker that resolves successfully leaves the in-flight set exactly
as it was before the marker (the path is removed again before the next marker
is examined), so a second sibling marker for the same path in the same pass
is rendered normally instead of being rejected as a cycle. -/
theorem C9_sibling_resolution (env : Env) (st : Settings) (fl : List DocPath)
    (p : DocPath) (m1 m2 : Marker) (f : VFile) (c r : List Char)
    (hgate1 : (st.renderAllTransclusions || isExplicitMarker m1) = true)
    (hgate2 : (st.renderAllTransclusions || isExplicitMarker m2) = true)
    (hsrc1 : m1.src = some p) (hsrc2 : m2.src = some p)
    (hp : p.isEmpty = false)
    (hfile : env.getFile p = some f) (htf : f.isTFile = true)
    (hnot : fl.contains p = false)
    (hread : env.readFile p = Except.ok c)
    (hrender : ∀ t, env.render p t = Except.ok r) :
    processMarker env st fl m1 = (Except.ok (NodeState.rendered r), fl)
    ∧ processAll env st fl [m1, m2]
        = (Except.ok [NodeState.rendered r, NodeState.rendered r], fl) := by
  have herase : (setAdd p fl).erase p = fl := by
    unfold setAdd
    rw [if_neg (by simp_all)]
    exact List.erase_cons_head p fl
  have hmem : ¬ p ∈ fl := by simpa using hnot
  have hstep : ∀ m, (st.renderAllTransclusions || isExplicitMarker m) = true →
      m.src = some p →
      processMarker env st fl m = (Except.ok (NodeState.rendered r), fl) := by
    intro m hg hs
    unfold processMarker processEligible
    rw [hg]
    simp only [hs, srcTruthy, hp, Bool.not_false, if_true, Option.getD_some,
      hfile, htf, hmem, hnot, if_false, hread, hrender, herase]
    simp
  refine ⟨hstep m1 hgate1 hsrc1, ?_⟩
  simp only [processAll, hstep m1 hgate1 hsrc1, hstep m2 hgate2 hsrc2]

/-- C9 witness: two sibling explicit markers for document A both render in a
pass that starts with an empty in-flight set, which is also empty at the end. -/
theorem C9_witness :
    processMarker
        { getFile := fun _ => some { isTFile := true },
          readFile := fun _ => Except.ok ['x'],
          render := fun _ _ => Except.ok ['y'] } stPlain [] markerA
      = (Except.ok (NodeState.rendered ['y']), [])
    ∧ processAll
        { getFile := fun _ => some { isTFile := true },
          readFile := fun _ => Except.ok ['x'],
          render := fun _ _ => Except.ok ['y'] } stPlain [] [markerA, markerA]
      = (Except.ok [NodeState.rendered ['y'], NodeState.rendered ['y']], []) :=
  C9_sibling_resolution _ stPlain [] ['A'] markerA markerA
    { isTFile := true } ['x'] ['y'] (by decide) (by decide) rfl rfl rfl rfl
    rfl rfl rfl (fun _ => rfl)

/-- C1: the claim demands that the path be removed from the in-flight set on
every exit of a resolution that entered it, even when vault.read rejects; the
code has no try/finally, so on a read rejection the error propagates while
the path stays in the set.  This theorem evaluates the failing input: reading
A rejects, and the pass ends with the error and with A still in flight. -/
theorem C1_inflight_leak_on_read_error :
    processMarker envReadFails stPlain [] markerA
        = (Except.error "io error".toList, [['A']])
    ∧ (processAll envReadFails stPlain [] [markerA]).2 = [['A']] := by
  constructor
  · rfl
  · rfl

theorem charLe_toNat {a b : Char} (h : a ≤ b) : a.toNat ≤ b.toNat := by
  have h2 : a.val ≤ b.val := h
  rw [UInt32.le_def] at h2
  simpa [Char.toNat, UInt32.toNat] using h2

theorem tagLevel_range {t : List Char} {l : Nat} (h : tagLevel t = some l) :
    1 ≤ l ∧ l ≤ 6 := by
  match t with
  | [] => simp [tagLevel] at h
  | [a] => simp [tagLevel] at h
  | a :: b :: d :: rest => simp [tagLevel] at h
  | [a, c] =>
    rw [show tagLevel [a, c]
        = if a = 'H' ∧ '1' ≤ c ∧ c ≤ '6' then some (c.toNat - '0'.toNat)
          else none from rfl] at h
    by_cases hc : a = 'H' ∧ '1' ≤ c ∧ c ≤ '6'
    · rw [if_pos hc] at h
      obtain ⟨-, h1, h6⟩ := hc
      have hl1 : (49 : Nat) ≤ c.toNat := charLe_toNat h1
      have hl6 : c.toNat ≤ 54 := charLe_toNat h6
      have heq : c.toNat - '0'.toNat = l := Option.some.inj h
      have h0 : ('0' : Char).toNat = 48 := rfl
      rw [h0] at heq
      omega
    · rw [if_neg hc] at h
      exact absurd h (by simp)

theorem ndLevel_range {nd : Nd} {l : Nat} (h : ndLevel nd = some l) :
    1 ≤ l ∧ l ≤ 6 := by
  unfold ndLevel at h
  match hm : nd.tagName with
  | some t => rw [hm] at h; exact tagLevel_range h
  | none => rw [hm] at h; exact absurd h (by simp)

theorem getParentHeaderLevel_eq_findSome (chain : List Nd) :
    getParentHeaderLevel chain = chain.findSome? ndLevel := by
  induction chain with
  | nil => rfl
  | cons nd rest ih =>
    unfold getParentHeaderLevel
    rw [List.findSome?_cons]
    cases ndLevel nd with
    | some l => rfl
    | none => exact ih

theorem getParentHeaderLevel_range {chain : List Nd} {l : Nat}
    (h : getParentHeaderLevel chain = some l) : 1 ≤ l ∧ l ≤ 6 := by
  induction chain with
  | nil => exact absurd h (by simp [getParentHeaderLevel])
  | cons nd rest ih =>
    unfold getParentHeaderLevel at h
    cases hm : ndLevel nd with
    | some l2 =>
      rw [hm] at h
      exact (Option.some.inj h) ▸ ndLevel_range hm
    | none => rw [hm] at h; exact ih h

/-- C4 counterexample: the locator of the source starts at the marker node
itself, so on a chain whose sole node is itself an H2 element it returns
level 2, while a locator that inspects only nodes strictly above the marker
returns none; the two locators are therefore not the same function. -/
theorem C4_counterexample :
    getParentHeaderLevel [Nd.mk (some ['H', '2'])] = some 2
    ∧ strictAncestorLevel [Nd.mk (some ['H', '2'])] = none
    ∧ ¬ (∀ chain, getParentHeaderLevel chain = strictAncestorLevel chain) :=
  ⟨by decide, rfl,
   fun hall => absurd (hall [Nd.mk (some ['H', '2'])]) (by decide)⟩

/-- C4 amended: the locator walks the chain starting at the marker node
itself and returns the level (always between 1 and 6) of the nearest
self-or-ancestor heading node, or none when there is no such node; whenever
the marker node itself is not a heading element (as for the span markers the
scanner produces), this coincides with the strictly-above ancestor search,
and the locator mutates nothing (it is a pure function of the chain). -/
theorem C4_locator_self_inclusive :
    (∀ chain, getParentHeaderLevel chain = chain.findSome? ndLevel)
    ∧ (∀ nd rest, ndLevel nd = none →
        getParentHeaderLevel (nd :: rest) = strictAncestorLevel (nd :: rest))
    ∧ (∀ chain l, getParentHeaderLevel chain = some l → 1 ≤ l ∧ l ≤ 6) := by
  refine ⟨getParentHeaderLevel_eq_findSome, ?_, fun _ _ h => getParentHeaderLevel_range h⟩
  intro nd rest hnd
  unfold getParentHeaderLevel strictAncestorLevel
  rw [hnd]
  rfl

/-- C4 witness: for a span marker (no heading tag) below an H3 element the
locator agrees with the strictly-above search, and a located level is within
1..6. -/
theorem C4_witness :
    getParentHeaderLevel [Nd.mk none, Nd.mk (some ['H', '3'])]
        = strictAncestorLevel [Nd.mk none, Nd.mk (some ['H', '3'])]
    ∧ (1 ≤ 3 ∧ 3 ≤ 6) :=
  ⟨C4_locator_self_inclusive.2.1 (Nd.mk none) [Nd.mk (some ['H', '3'])] rfl,
   C4_locator_self_inclusive.2.2 [Nd.mk (some ['H', '3'])] 3 (by decide)⟩

theorem shiftLoop_nil (base : Nat) (a : Bool) : shiftLoop base a [] = [] := by
  rw [shiftLoop]

theorem shiftLoop_cons_match (base : Nat) (c : Char) (cs : List Char)
    (hcond : 1 ≤ countHashes (c :: cs) ∧ countHashes (c :: cs) ≤ 6 ∧
             firstIsSpace ((c :: cs).drop (countHashes (c :: cs))) = true) :
    shiftLoop base true (c :: cs)
      = List.replicate (min (countHashes (c :: cs) + base) 6) '#'
        ++ ' ' :: shiftLoop base
            (lastIsNewline (takeWs ((c :: cs).drop (countHashes (c :: cs)))))
            (dropWs ((c :: cs).drop (countHashes (c :: cs)))) := by
  rw [shiftLoop]
  exact dif_pos ⟨rfl, hcond.1, hcond.2.1, hcond.2.2⟩

theorem shiftLoop_cons_nomatch (base : Nat) (a : Bool) (c : Char) (cs : List Char)
    (hcond : ¬(a = true ∧ 1 ≤ countHashes (c :: cs) ∧ countHashes (c :: cs) ≤ 6 ∧
             firstIsSpace ((c :: cs).drop (countHashes (c :: cs))) = true)) :
    shiftLoop base a (c :: cs) = c :: shiftLoop base (c == '\n') cs := by
  rw [shiftLoop]
  exact dif_neg hcond

theorem space_ne_hash {c : Char} (h : jsIsSpace c = true) : (c == '#') = false := by
  unfold jsIsSpace at h
  simp only [Bool.or_eq_true, beq_iff_eq] at h
  rcases h with ((((rfl | rfl) | rfl) | rfl) | rfl) | rfl <;> decide

theorem countHashes_cons (c : Char) (l : List Char) :
    countHashes (c :: l) = if (c == '#') = true then countHashes l + 1 else 0 := by
  rw [countHashes]

theorem countHashes_cons_not_hash {c : Char} (l : List Char)
    (h : (c == '#') = false) : countHashes (c :: l) = 0 := by
  rw [countHashes_cons, h]
  simp

theorem countHashes_replicate_append (k : Nat) (l : List Char) :
    countHashes (List.replicate k '#' ++ l) = k + countHashes l := by
  induction k with
  | zero => simp
  | succ k ih =>
    rw [List.replicate_succ, List.cons_append, countHashes_cons, ih,
      if_pos (show ('#' == '#') = true from rfl)]
    omega

theorem takeWs_append (ws rest : List Char)
    (hws : ∀ c ∈ ws, jsIsSpace c = true) (hrest : firstIsSpace rest = false) :
    takeWs (ws ++ rest) = ws ∧ dropWs (ws ++ rest) = rest := by
  induction ws with
  | nil =>
    cases rest with
    | nil => simp [takeWs, dropWs]
    | cons r t =>
      simp only [firstIsSpace] at hrest
      simp [takeWs, dropWs, List.takeWhile, List.dropWhile, hrest]
  | cons w ws ih =>
    have hw : jsIsSpace w = true := hws w (by simp)
    have := ih (fun c hc => hws c (by simp [hc]))
    simp [takeWs, dropWs, List.takeWhile, List.dropWhile, hw] at this ⊢
    exact this

/-- One regex match at an anchored position: a run of 1-6 hash characters
followed by a nonempty whitespace run is replaced by min(h + base, 6) hash
characters and a single space, and the scan continues after the whitespace
run, anchored again exactly when that run ended with a newline. -/
theorem shiftLoop_heading (base h : Nat) (ws rest : List Char)
    (h1 : 1 ≤ h) (h6 : h ≤ 6) (hne : ws ≠ [])
    (hws : ∀ c ∈ ws, jsIsSpace c = true)
    (hrest : firstIsSpace rest = false) :
    shiftLoop base true (List.replicate h '#' ++ (ws ++ rest))
      = List.replicate (min (h + base) 6) '#'
        ++ ' ' :: shiftLoop base (lastIsNewline ws) rest := by
  obtain ⟨w, ws', rfl⟩ : ∃ w ws', ws = w :: ws' := by
    cases ws with
    | nil => exact absurd rfl hne
    | cons a b => exact ⟨a, b, rfl⟩
  obtain ⟨h', rfl⟩ : ∃ h', h = h' + 1 := ⟨h - 1, by omega⟩
  have hw : jsIsSpace w = true := hws w (by simp)
  have hcount : countHashes (List.replicate (h' + 1) '#' ++ (w :: ws' ++ rest))
      = h' + 1 := by
    rw [countHashes_replicate_append, List.cons_append,
      countHashes_cons_not_hash _ (space_ne_hash hw)]
  have hdrop : (List.replicate (h' + 1) '#' ++ (w :: ws' ++ rest)).drop (h' + 1)
      = w :: ws' ++ rest :=
    List.drop_left' (by simp)
  have htake := takeWs_append (w :: ws') rest hws hrest
  rw [List.replicate_succ, List.cons_append] at hcount hdrop ⊢
  rw [shiftLoop_cons_match base _ _ ?_]
  · rw [hcount, hdrop, htake.1, htake.2]
  · refine ⟨by omega, by omega, ?_⟩
    rw [hcount, hdrop]
    simp [firstIsSpace, hw]

theorem dropWs_of_head_false {l : List Char} (h : firstIsSpace l = false) :
    dropWs l = l := by
  cases l with
  | nil => rfl
  | cons c cs =>
    simp only [firstIsSpace] at h
    simp [dropWs, List.dropWhile, h]

theorem takeWs_of_head_false {l : List Char} (h : firstIsSpace l = false) :
    takeWs l = [] := by
  cases l with
  | nil => rfl
  | cons c cs =>
    simp only [firstIsSpace] at h
    simp [takeWs, List.takeWhile, h]

theorem jsIsSpace_newline : jsIsSpace '\n' = true := rfl

theorem takeWs_all_of_dropWs_nil {l : List Char} (h : dropWs l = []) :
    takeWs l = l := by
  have hsplit : takeWs l ++ dropWs l = l :=
    List.takeWhile_append_dropWhile jsIsSpace l
  rw [h, List.append_nil] at hsplit
  exact hsplit

theorem lastIsNewline_concat (u : List Char) :
    lastIsNewline (u ++ ['\n']) = true := by
  unfold lastIsNewline
  rw [List.getLast?_concat]
  rfl

theorem countHashes_stop (c₀ : Char) (hc : (c₀ == '#') = false)
    (l t : List Char) :
    countHashes (l ++ c₀ :: t) = countHashes (l ++ [c₀]) := by
  induction l with
  | nil =>
    simp only [List.nil_append]
    rw [countHashes_cons_not_hash _ hc, countHashes_cons_not_hash _ hc]
  | cons a l ih =>
    simp only [List.cons_append]
    rw [countHashes_cons, countHashes_cons, ih]

theorem countHashes_le_stop (c₀ : Char) (hc : (c₀ == '#') = false)
    (l t : List Char) : countHashes (l ++ c₀ :: t) ≤ l.length := by
  induction l with
  | nil =>
    simp only [List.nil_append]
    rw [countHashes_cons_not_hash _ hc]
    simp
  | cons a l ih =>
    simp only [List.cons_append]
    rw [countHashes_cons]
    by_cases hA : (a == '#') = true
    · rw [if_pos hA]
      simpa using ih
    · rw [if_neg hA]
      simp

theorem firstIsSpace_append_stop (u : List Char) (c₀ : Char)
    (t₁ t₂ : List Char) :
    firstIsSpace (u ++ c₀ :: t₁) = firstIsSpace (u ++ c₀ :: t₂) := by
  cases u with
  | nil => rfl
  | cons a l => rfl

theorem takeWs_stop {s₂ : List Char} (h2 : firstIsSpace s₂ = false)
    (u : List Char) :
    takeWs (u ++ '\n' :: s₂) = takeWs (u ++ ['\n']) := by
  induction u with
  | nil =>
    simp only [List.nil_append]
    have hstep : takeWs ('\n' :: s₂) = '\n' :: takeWs s₂ := by
      simp [takeWs, List.takeWhile, jsIsSpace_newline]
    rw [hstep, takeWs_of_head_false h2]
    rfl
  | cons a u ih =>
    simp only [List.cons_append]
    by_cases hA : jsIsSpace a = true
    · simp only [takeWs, List.takeWhile, hA] at ih ⊢
      rw [ih]
    · simp only [Bool.not_eq_true] at hA
      simp [takeWs, List.takeWhile, hA]

theorem wsRun_split {s₂ : List Char} (h2 : firstIsSpace s₂ = false)
    (u : List Char) :
    (dropWs (u ++ ['\n']) = [] ∧ dropWs (u ++ '\n' :: s₂) = s₂)
    ∨ (∃ v, v.length ≤ u.length ∧ dropWs (u ++ ['\n']) = v ++ ['\n']
        ∧ dropWs (u ++ '\n' :: s₂) = v ++ '\n' :: s₂) := by
  induction u with
  | nil =>
    left
    constructor
    · simp [dropWs, List.dropWhile, jsIsSpace_newline]
    · simp only [List.nil_append]
      have hstep : dropWs ('\n' :: s₂) = dropWs s₂ := by
        simp [dropWs, List.dropWhile, jsIsSpace_newline]
      rw [hstep, dropWs_of_head_false h2]
  | cons a u ih =>
    by_cases hA : jsIsSpace a = true
    · rcases ih with ⟨h1, h2'⟩ | ⟨v, hv, h1, h2'⟩
      · left
        constructor
        · simpa [dropWs, List.dropWhile, hA] using h1
        · simpa [dropWs, List.dropWhile, hA] using h2'
      · right
        refine ⟨v, Nat.le_succ_of_le hv, ?_, ?_⟩
        · simpa [dropWs, List.dropWhile, hA] using h1
        · simpa [dropWs, List.dropWhile, hA] using h2'
    · right
      simp only [Bool.not_eq_true] at hA
      exact ⟨a :: u, Nat.le_refl _,
        by simp [dropWs, List.dropWhile, hA],
        by simp [dropWs, List.dropWhile, hA]⟩

theorem shiftLoop_split_nil (base : Nat) (a : Bool) {s₂ : List Char}
    (h2 : firstIsSpace s₂ = false) :
    shiftLoop base a ('\n' :: s₂)
      = shiftLoop base a ['\n'] ++ shiftLoop base true s₂ := by
  have hzero : ∀ t : List Char, countHashes ('\n' :: t) = 0 :=
    fun t => countHashes_cons_not_hash t (by decide)
  rw [shiftLoop_cons_nomatch base a '\n' s₂ (by simp [hzero]),
    shiftLoop_cons_nomatch base a '\n' [] (by simp [hzero]),
    shiftLoop_nil]
  rfl

/-- The multiline scan distributes over a newline boundary whose right-hand
side does not start with whitespace: the text after such a newline is
processed independently, anchored at a line start.  This is the sense in
which the replacement acts line by line. -/
theorem shiftLoop_split (base : Nat) {s₂ : List Char}
    (h2 : firstIsSpace s₂ = false) :
    ∀ (n : Nat) (s₁ : List Char), s₁.length ≤ n → ∀ a : Bool,
      shiftLoop base a (s₁ ++ '\n' :: s₂)
        = shiftLoop base a (s₁ ++ ['\n']) ++ shiftLoop base true s₂ := by
  intro n
  induction n with
  | zero =>
    intro s₁ hlen a
    have : s₁ = [] := List.length_eq_zero.mp (Nat.le_zero.mp hlen)
    subst this
    simp only [List.nil_append]
    exact shiftLoop_split_nil base a h2
  | succ n ih =>
    intro s₁ hlen a
    cases s₁ with
    | nil =>
      simp only [List.nil_append]
      exact shiftLoop_split_nil base a h2
    | cons c cs =>
      simp only [List.cons_append]
      simp only [List.length_cons] at hlen
      have hn : countHashes (c :: (cs ++ '\n' :: s₂))
          = countHashes (c :: (cs ++ ['\n'])) := by
        have := countHashes_stop '\n' (by decide) (c :: cs) s₂
        simpa using this
      have hle : countHashes (c :: (cs ++ '\n' :: s₂)) ≤ cs.length + 1 := by
        have := countHashes_le_stop '\n' (by decide) (c :: cs) s₂
        simpa using this
      have hdrop1 : (c :: (cs ++ '\n' :: s₂)).drop
            (countHashes (c :: (cs ++ '\n' :: s₂)))
          = ((c :: cs).drop (countHashes (c :: (cs ++ '\n' :: s₂)))) ++ '\n' :: s₂ := by
        rw [show c :: (cs ++ '\n' :: s₂) = (c :: cs) ++ '\n' :: s₂ by simp,
          List.drop_append_eq_append_drop,
          Nat.sub_eq_zero_of_le (by simpa using hle), List.drop_zero]
      have hdrop2 : (c :: (cs ++ ['\n'])).drop
            (countHashes (c :: (cs ++ '\n' :: s₂)))
          = ((c :: cs).drop (countHashes (c :: (cs ++ '\n' :: s₂)))) ++ ['\n'] := by
        rw [show c :: (cs ++ ['\n']) = (c :: cs) ++ ['\n'] by simp,
          List.drop_append_eq_append_drop,
          Nat.sub_eq_zero_of_le (by simpa using hle), List.drop_zero]
      have hfs : firstIsSpace ((c :: (cs ++ '\n' :: s₂)).drop
            (countHashes (c :: (cs ++ '\n' :: s₂))))
          = firstIsSpace ((c :: (cs ++ ['\n'])).drop
            (countHashes (c :: (cs ++ ['\n'])))) := by
        rw [← hn, hdrop1, hdrop2]
        exact firstIsSpace_append_stop _ '\n' s₂ []
      by_cases hc : a = true ∧ 1 ≤ countHashes (c :: (cs ++ '\n' :: s₂)) ∧
          countHashes (c :: (cs ++ '\n' :: s₂)) ≤ 6 ∧
          firstIsSpace ((c :: (cs ++ '\n' :: s₂)).drop
            (countHashes (c :: (cs ++ '\n' :: s₂)))) = true
      · obtain ⟨ha, hge, hle6, hsp⟩ := hc
        subst ha
        rw [shiftLoop_cons_match base c (cs ++ '\n' :: s₂) ⟨hge, hle6, hsp⟩,
          shiftLoop_cons_match base c (cs ++ ['\n'])
            ⟨hn ▸ hge, hn ▸ hle6, hfs ▸ hsp⟩]
        rw [← hn, hdrop1, hdrop2, takeWs_stop h2]
        rcases wsRun_split h2 ((c :: cs).drop
            (countHashes (c :: (cs ++ '\n' :: s₂)))) with
          ⟨hd2, hd1⟩ | ⟨v, hvlen, hd2, hd1⟩
        · rw [hd1, hd2, takeWs_all_of_dropWs_nil hd2, lastIsNewline_concat,
            shiftLoop_nil]
          simp
        · rw [hd1, hd2]
          have hv : v.length ≤ n := by
            have hu : ((c :: cs).drop
                (countHashes (c :: (cs ++ '\n' :: s₂)))).length
                = cs.length + 1 - countHashes (c :: (cs ++ '\n' :: s₂)) := by
              simp [List.length_drop]
            omega
          rw [ih v hv (lastIsNewline (takeWs (((c :: cs).drop
            (countHashes (c :: (cs ++ '\n' :: s₂)))) ++ ['\n'])))]
          simp
      · have hc' : ¬(a = true ∧ 1 ≤ countHashes (c :: (cs ++ ['\n'])) ∧
            countHashes (c :: (cs ++ ['\n'])) ≤ 6 ∧
            firstIsSpace ((c :: (cs ++ ['\n'])).drop
              (countHashes (c :: (cs ++ ['\n'])))) = true) := by
          intro hx
          exact hc ⟨hx.1, hn.symm ▸ hx.2.1, hn.symm ▸ hx.2.2.1,
            hfs.symm ▸ hx.2.2.2⟩
        rw [shiftLoop_cons_nomatch base a c (cs ++ '\n' :: s₂) hc,
          shiftLoop_cons_nomatch base a c (cs ++ ['\n']) hc',
          ih cs (by omega) (c == '\n')]
        simp

/-- A line that contains no newline and does not match the heading pattern at
its start is copied verbatim by the scan: after its first character the
anchor is lost until the closing newline, so no character of the line is
touched. -/
theorem shiftLoop_line_untouched (base : Nat) (s₂ : List Char) :
    ∀ (l : List Char) (a : Bool), '\n' ∉ l →
      (a = true →
        ¬(1 ≤ countHashes (l ++ '\n' :: s₂) ∧
          countHashes (l ++ '\n' :: s₂) ≤ 6 ∧
          firstIsSpace ((l ++ '\n' :: s₂).drop
            (countHashes (l ++ '\n' :: s₂))) = true)) →
      shiftLoop base a (l ++ '\n' :: s₂)
        = l ++ '\n' :: shiftLoop base true s₂ := by
  intro l
  induction l with
  | nil =>
    intro a _ _
    simp only [List.nil_append]
    rw [shiftLoop_cons_nomatch base a '\n' s₂ ?_]
    · rfl
    · intro hx
      have h0 : countHashes ('\n' :: s₂) = 0 :=
        countHashes_cons_not_hash s₂ (by decide)
      rw [h0] at hx
      exact absurd hx.2.1 (by decide)
  | cons c l ih =>
    intro a hnl hnm
    simp only [List.cons_append] at hnm ⊢
    rw [shiftLoop_cons_nomatch base a c (l ++ '\n' :: s₂) ?_]
    · have hc : (c == '\n') = false := by
        have : c ≠ '\n' := fun hx => hnl (by simp [hx])
        simpa using this
      rw [hc, ih false (fun hx => hnl (by simp [hx])) (by intro h; exact absurd h (by simp))]
    · intro hx
      exact hnm hx.1 ⟨hx.2.1, hx.2.2.1, hx.2.2.2⟩

/-- C3: the heading shifter is a pure function: with base level none the text
is unchanged; with a base level, a line that starts with h hash markers
(1..6) followed by whitespace — whether the line starts the text or follows
a newline — has its marker count replaced by min(h + base, 6); and the three
specification examples evaluate as stated. -/
theorem C3_shift_deterministic :
    (∀ t, shiftOpt t none = t)
    ∧ (∀ (base h : Nat) (ws rest : List Char), 1 ≤ h → h ≤ 6 → ws ≠ [] →
        (∀ c ∈ ws, jsIsSpace c = true) → firstIsSpace rest = false →
        shiftOpt (List.replicate h '#' ++ (ws ++ rest)) (some base)
          = List.replicate (min (h + base) 6) '#'
            ++ ' ' :: shiftLoop base (lastIsNewline ws) rest)
    ∧ (∀ (base h : Nat) (pre ws rest : List Char), 1 ≤ h → h ≤ 6 → ws ≠ [] →
        (∀ c ∈ ws, jsIsSpace c = true) → firstIsSpace rest = false →
        shiftOpt (pre ++ '\n' :: (List.replicate h '#' ++ (ws ++ rest)))
            (some base)
          = shiftLoop base true (pre ++ ['\n'])
            ++ (List.replicate (min (h + base) 6) '#'
              ++ ' ' :: shiftLoop base (lastIsNewline ws) rest))
    ∧ shiftOpt "###### x".toList (some 3) = "###### x".toList
    ∧ shiftOpt "# x".toList (some 2) = "### x".toList
    ∧ shiftOpt "## x".toList none = "## x".toList := by
  refine ⟨fun t => rfl, ?_, ?_, ?_, ?_, rfl⟩
  · intro base h ws rest h1 h6 hne hws hrest
    exact shiftLoop_heading base h ws rest h1 h6 hne hws hrest
  · intro base h pre ws rest h1 h6 hne hws hrest
    have hfs : firstIsSpace (List.replicate h '#' ++ (ws ++ rest)) = false := by
      obtain ⟨h', rfl⟩ : ∃ h', h = h' + 1 := ⟨h - 1, by omega⟩
      rw [List.replicate_succ, List.cons_append]
      rfl
    show shiftLoop base true
        (pre ++ '\n' :: (List.replicate h '#' ++ (ws ++ rest))) = _
    rw [shiftLoop_split base hfs pre.length pre (Nat.le_refl _) true,
      shiftLoop_heading base h ws rest h1 h6 hne hws hrest]
  · simp [shiftOpt, shiftLoop, countHashes, firstIsSpace, jsIsSpace, takeWs,
      dropWs, lastIsNewline]
  · simp [shiftOpt, shiftLoop, countHashes, firstIsSpace, jsIsSpace, takeWs,
      dropWs, lastIsNewline]

/-- C3 witness: a level-2 heading line shifted by base 1 becomes a level-3
heading line. -/
theorem C3_witness :
    shiftOpt (List.replicate 2 '#' ++ ([' '] ++ ['x'])) (some 1)
      = List.replicate (min (2 + 1) 6) '#'
        ++ ' ' :: shiftLoop 1 (lastIsNewline [' ']) ['x'] :=
  C3_shift_deterministic.2.1 1 2 [' '] ['x'] (by decide) (by decide)
    (by decide) (by decide) (by decide)

/-- C6 counterexample: the replacement emits a single space regardless of the
whitespace that followed the markers, so on a heading with two spaces after
the markers the whitespace is not preserved: shifting "##  x" by 1 gives
"### x", not "###  x". -/
theorem C6_counterexample :
    shiftOpt "##  x".toList (some 1) = "### x".toList
    ∧ shiftOpt "##  x".toList (some 1) ≠ "###  x".toList := by
  have h1 : shiftOpt "##  x".toList (some 1) = "### x".toList := by
    simp [shiftOpt, shiftLoop, countHashes, firstIsSpace, jsIsSpace, takeWs,
      dropWs, lastIsNewline]
  exact ⟨h1, by rw [h1]; decide⟩

/-- C6 amended: for a heading line, the marker run and the whole whitespace
run that follows it (which, being matched by \s+, may extend across line
breaks) are together replaced by the new marker count and one single space;
the content after the whitespace run is preserved exactly, and a
newline-free stretch of text that does not match the heading pattern at its
anchored start is reproduced unchanged up to and including its closing
newline. -/
theorem C6_single_space_replacement (base h : Nat) (ws rest l s₂ : List Char)
    (a : Bool)
    (h1 : 1 ≤ h) (h6 : h ≤ 6) (hne : ws ≠ [])
    (hws : ∀ c ∈ ws, jsIsSpace c = true) (hrest : firstIsSpace rest = false)
    (hnl : '\n' ∉ l)
    (hnm : a = true → ¬(1 ≤ countHashes (l ++ '\n' :: s₂) ∧
        countHashes (l ++ '\n' :: s₂) ≤ 6 ∧
        firstIsSpace ((l ++ '\n' :: s₂).drop
          (countHashes (l ++ '\n' :: s₂))) = true)) :
    shiftLoop base true (List.replicate h '#' ++ (ws ++ rest))
      = List.replicate (min (h + base) 6) '#'
        ++ ' ' :: shiftLoop base (lastIsNewline ws) rest
    ∧ shiftLoop base a (l ++ '\n' :: s₂)
      = l ++ '\n' :: shiftLoop base true s₂ :=
  ⟨shiftLoop_heading base h ws rest h1 h6 hne hws hrest,
   shiftLoop_line_untouched base s₂ l a hnl hnm⟩

/-- C6 witness: a heading with two trailing spaces collapses them to one, and
the non-heading line "ab" before a line start is copied unchanged. -/
theorem C6_witness :
    (shiftLoop 1 true (List.replicate 2 '#' ++ ([' ', ' '] ++ ['x']))
      = List.replicate (min (2 + 1) 6) '#'
        ++ ' ' :: shiftLoop 1 (lastIsNewline [' ', ' ']) ['x'])
    ∧ shiftLoop 1 false (['a', 'b'] ++ '\n' :: [])
      = ['a', 'b'] ++ '\n' :: shiftLoop 1 true [] :=
  C6_single_space_replacement 1 2 [' ', ' '] ['x'] ['a', 'b'] [] false
    (by decide) (by decide) (by decide) (by decide) (by decide) (by decide)
    (fun hx => absurd hx (by decide))

/-- C10: a base level located by the ancestor locator is always between 1 and
6, and shifting a level-h heading line (1 <= h <= 6) by it never lowers the
level: the new marker count min(h + L, 6) is at least h. -/
theorem C10_no_level_decrease (chain : List Nd) (L h : Nat)
    (ws rest : List Char)
    (hL : getParentHeaderLevel chain = some L)
    (h1 : 1 ≤ h) (h6 : h ≤ 6) (hne : ws ≠ [])
    (hws : ∀ c ∈ ws, jsIsSpace c = true)
    (hrest : firstIsSpace rest = false) :
    1 ≤ L ∧ L ≤ 6
    ∧ h ≤ min (h + L) 6
    ∧ shiftOpt (List.replicate h '#' ++ (ws ++ rest))
          (getParentHeaderLevel chain)
        = List.replicate (min (h + L) 6) '#'
          ++ ' ' :: shiftLoop L (lastIsNewline ws) rest := by
  obtain ⟨hL1, hL6⟩ := getParentHeaderLevel_range hL
  refine ⟨hL1, hL6, by omega, ?_⟩
  rw [hL]
  exact shiftLoop_heading L h ws rest h1 h6 hne hws hrest

/-- C10 witness: under an H2 ancestor, a level-1 heading line becomes level
3, which is not below 1. -/
theorem C10_witness :
    1 ≤ 2 ∧ 2 ≤ 6
    ∧ 1 ≤ min (1 + 2) 6
    ∧ shiftOpt (List.replicate 1 '#' ++ ([' '] ++ ['x']))
          (getParentHeaderLevel [Nd.mk (some ['H', '2'])])
        = List.replicate (min (1 + 2) 6) '#'
          ++ ' ' :: shiftLoop 2 (lastIsNewline [' ']) ['x'] :=
  C10_no_level_decrease [Nd.mk (some ['H', '2'])] 2 1 [' '] ['x']
    (by decide) (by decide) (by decide) (by decide) (by decide) (by decide)

end NativeTransclusion
